import Mathlib

set_option maxHeartbeats 1000000

namespace MTag

instance {ε α : Type} [DecidableEq ε] [DecidableEq α] : DecidableEq (Except ε α) := fun x y =>
  match x, y with
  | Except.ok a, Except.ok b =>
    if h : a = b then isTrue (congrArg Except.ok h)
    else isFalse (fun heq => h (Except.ok.inj heq))
  | Except.ok _, Except.error _ => isFalse (fun heq => Except.noConfusion heq)
  | Except.error _, Except.ok _ => isFalse (fun heq => Except.noConfusion heq)
  | Except.error e, Except.error f =>
    if h : e = f then isTrue (congrArg Except.error h)
    else isFalse (fun heq => h (Except.error.inj heq))

/-- Raw text is modelled as a list of characters. -/
abbrev Str := List Char

/-- Character list of a Lean string literal. -/
def chars (s : String) : Str := s.data

/-- Models Python str.casefold, which agrees with lowercasing on the ASCII
tag keys the plugin handles. -/
def casefold (s : Str) : Str := s.map Char.toLower

/-- Models Python str.split(sep) for a one-character separator; the result is
always nonempty. -/
def splitOnChar (c : Char) : Str → List Str
  | [] => [[]]
  | x :: xs =>
    match splitOnChar c xs with
    | [] => [[]]
    | p :: ps => if x = c then [] :: p :: ps else (x :: p) :: ps

/-- The nonempty pieces between slashes of a path string. -/
def pathComponents (s : Str) : List Str :=
  (splitOnChar '/' s).filter (fun t => !t.isEmpty)

/-- Processes "." and ".." components left to right; the accumulator holds the
output components in reverse.  Models pathlib Path.resolve's component walk on
a symlink-free POSIX tree. -/
def normCompAux (acc : List Str) : List Str → List Str
  | [] => acc.reverse
  | c :: rest =>
    if c = chars "." then normCompAux acc rest
    else if c = chars ".." then normCompAux acc.tail rest
    else normCompAux (c :: acc) rest

def normComponents (cs : List Str) : List Str := normCompAux [] cs

def renderComps : List Str → Str
  | [] => []
  | c :: cs => '/' :: c ++ renderComps cs

/-- Absolute path text of a component list. -/
def renderAbs (cs : List Str) : Str := if cs.isEmpty then ['/'] else renderComps cs

/-- Models pathlib Path.resolve with the working directory at the filesystem
root and no symlinks: canonical absolute form of a path string. -/
def canonPath (s : Str) : Str := renderAbs (normComponents (pathComponents s))

/-- Models pathlib Path.parent for the paths the loader works with. -/
def parentDir (s : Str) : Str := renderAbs ((pathComponents s).dropLast)

/-- Models pathlib's / operator: an absolute right operand replaces the left. -/
def joinPaths (dir rel : Str) : Str :=
  if rel.head? = some '/' then rel else dir ++ '/' :: rel

def isDigitCh (c : Char) : Bool := '0' ≤ c && c ≤ '9'

def digitVal (c : Char) : Nat := c.toNat - '0'.toNat

def isSpaceCh (c : Char) : Bool := c = ' ' || c = '\t' || c = '\n' || c = '\r'

def parseDigitsAux (acc : Nat) : Str → Option Nat
  | [] => some acc
  | c :: cs =>
    if isDigitCh c then parseDigitsAux (10 * acc + digitVal c) cs
    else if c = '_' then
      match cs with
      | d :: cs2 => if isDigitCh d then parseDigitsAux (10 * acc + digitVal d) cs2 else none
      | [] => none
    else none

def parseUnsigned : Str → Option Nat
  | [] => none
  | c :: cs => if isDigitCh c then parseDigitsAux (digitVal c) cs else none

def trimWS (s : Str) : Str := ((s.dropWhile isSpaceCh).reverse.dropWhile isSpaceCh).reverse

/-- Models Python int() applied to a decimal string (ASCII digits, optional
sign, single underscores between digits, surrounding whitespace). -/
def parsePyInt (s : Str) : Option Int :=
  match trimWS s with
  | '+' :: rest => (parseUnsigned rest).map (fun n => (n : Int))
  | '-' :: rest => (parseUnsigned rest).map (fun n => -(n : Int))
  | rest => (parseUnsigned rest).map (fun n => (n : Int))

/-- A scalar JSON value: string or number.  (The sidecar format's values are
strings, numbers, or arrays of such.) -/
inductive Prim where
  | pstr (s : Str)
  | pnum (n : Int)
deriving DecidableEq, Inhabited

/-- A JSON value stored in a tag set: a scalar or an array of scalars. -/
inductive Value where
  | prim (p : Prim)
  | varr (l : List Prim)
deriving DecidableEq, Inhabited

/-- A parsed JSON object: key/value pairs in file order. -/
abbrev Entry := List (Str × Value)

/-- A Python dict: insertion-ordered association list with unique keys. -/
abbrev Dict := List (Str × Value)

def dictLookup : Dict → Str → Option Value
  | [], _ => none
  | (k, v) :: rest, key => if k = key then some v else dictLookup rest key

/-- Python dict item assignment: replace an existing binding in place, else
append. -/
def dictInsert : Dict → Str → Value → Dict
  | [], key, v => [(key, v)]
  | (k, w) :: rest, key, v =>
    if k = key then (key, v) :: rest else (k, w) :: dictInsert rest key v

/-- Python dict.update. -/
def dictUpdate (m news : Dict) : Dict :=
  news.foldl (fun acc kv => dictInsert acc kv.1 kv.2) m

/-- Python del over a key (no-op when absent). -/
def dictRemove : Dict → Str → Dict
  | [], _ => []
  | (k, v) :: rest, key =>
    if k = key then dictRemove rest key else (k, v) :: dictRemove rest key

/-- The `if v == []: del` loop of MTagLoader._update: deletes every key whose
value is the empty sequence. -/
def delEmpty : Dict → Dict
  | [] => []
  | (k, v) :: rest =>
    if v = Value.varr [] then delEmpty rest else (k, v) :: delEmpty rest

/-- The dict comprehension of MTagLoader._update: case-fold all keys (later
duplicates win, as in a Python dict build). -/
def casefoldDict (e : Entry) : Dict :=
  e.foldl (fun acc kv => dictInsert acc (casefold kv.1) kv.2) []

/-- MTagLoader._update: overlay the case-folded entry onto the cumulative tag
set, then delete empty-sequence values.  The returned dict is also the new
cumulative state. -/
def tagUpdate (ts : Dict) (e : Entry) : Dict := delEmpty (dictUpdate ts (casefoldDict e))

/-- The Python exception classes that can escape the modelled code paths. -/
inductive PyErr where
  | keyError
  | valueError
  | notImplementedError
  | lookupError
  | exceptionError
  | typeError
  | attributeError
  | parseError
  | indexError
  | outOfFuel
deriving DecidableEq

/-- Outcome of iterating MTagLoader.items: the pairs yielded before the
generator either finished (error = none) or raised (error = some e). -/
structure ItemsResult where
  yielded : List (Str × Dict)
  error : Option PyErr
deriving DecidableEq

/-- The filesystem: maps a path to the parsed JSON array of a sidecar file,
or none when the file is unreadable or not valid JSON. -/
structure FS where
  files : Str → Option (List Entry)

/-- json.load in MTagLoader.items; a failed load contributes zero entries. -/
def entriesOf (fs : FS) (p : Str) : List Entry := (fs.files p).getD []

/-- The reserved reference key. -/
def atKey : Str := chars "@"

/-- The entry loop of MTagLoader.items, parameterized by the resolver.
Per entry: update the cumulative tag set, pop the reserved key from a copy
(KeyError aborts when it is absent; a non-string value is a TypeError from
the resolver's string operations), resolve it, skip the entry on
NotImplementedError, propagate any other error, else yield. -/
def runEntries (resolve : Str → Except PyErr Str) : Dict → List Entry → ItemsResult
  | _, [] => ⟨[], none⟩
  | ts, e :: rest =>
    match dictLookup (tagUpdate ts e) atKey with
    | none => ⟨[], some PyErr.keyError⟩
    | some (Value.prim (Prim.pstr ref)) =>
      match resolve ref with
      | Except.ok p =>
        ⟨(p, dictRemove (tagUpdate ts e) atKey) :: (runEntries resolve (tagUpdate ts e) rest).yielded,
         (runEntries resolve (tagUpdate ts e) rest).error⟩
      | Except.error PyErr.notImplementedError => runEntries resolve (tagUpdate ts e) rest
      | Except.error err => ⟨[], some err⟩
    | some _ => ⟨[], some PyErr.typeError⟩

/-- What _resolve_path raises when the nested entry loop ends without reaching
the requested index: the loop's own error if it raised, else LookupError. -/
def afterLoopErr (res : ItemsResult) : Except PyErr Str :=
  match res.error with
  | some e => Except.error e
  | none => Except.error PyErr.lookupError

/-- The str(path).endswith('.tags') recognition test. -/
def sufTags (p : Str) : Bool := (chars ".tags").isSuffixOf p

/-- Resolving base_path against the containing sidecar's directory, then
canonicalizing (lines 32-33 of _resolve_path). -/
def resolveBase (selfPath base : Str) : Str := canonPath (joinPaths (parentDir selfPath) base)

/-- The fresh MTagLoader the nested branch iterates (resolver.items()). -/
def nestedItems (fs : FS) (rp : Str → Str → Except PyErr Str) (p : Str) : ItemsResult :=
  runEntries (rp p) [] (entriesOf fs p)

/-- The indexed-selection loop of _resolve_path: enumerate the nested items
from 1 and recursively resolve the selected entry's (already resolved) path;
if the index is never reached, LookupError (or the loop's own error). -/
def resolveIndexed (fs : FS) (rp : Str → Str → Except PyErr Str) (p : Str) (sub : Int) :
    Except PyErr Str :=
  if 1 ≤ sub then
    match (nestedItems fs rp p).yielded.get? (sub.toNat - 1) with
    | some pr => rp p pr.1
    | none => afterLoopErr (nestedItems fs rp p)
  else afterLoopErr (nestedItems fs rp p)

/-- One level of MTagLoader._resolve_path; rp performs the recursive calls
(this models the same method on the freshly instantiated loader).
Splitting on '|' into more than two parts is the uncaught unpack ValueError;
a non-integer index part is the NotImplementedError raised in the except
ValueError handler; an indexed reference to a non-.tags target is the bare
raise Exception. -/
def resolvePathF (fs : FS) (rp : Str → Str → Except PyErr Str) (selfPath ref : Str) :
    Except PyErr Str :=
  match splitOnChar '|' ref with
  | [base] => Except.ok (resolveBase selfPath base)
  | [base, subs] =>
    match parsePyInt subs with
    | none => Except.error PyErr.notImplementedError
    | some sub =>
      if sufTags (resolveBase selfPath base) then
        resolveIndexed fs rp (resolveBase selfPath base) sub
      else Except.error PyErr.exceptionError
  | _ => Except.error PyErr.valueError

/-- MTagLoader._resolve_path with a recursion-depth fuel; the source has no
cycle or depth guard, so a chain longer than the fuel is reported with the
artificial outOfFuel outcome (the Python code would still be recursing). -/
def resolvePath (fs : FS) : Nat → Str → Str → Except PyErr Str
  | 0 => fun _ _ => Except.error PyErr.outOfFuel
  | fuel + 1 => resolvePathF fs (resolvePath fs fuel)

/-- MTagLoader.items on the sidecar file at p. -/
def itemsFrom (fs : FS) (fuel : Nat) (p : Str) : ItemsResult :=
  runEntries (resolvePath fs fuel p) [] (entriesOf fs p)

/-- Converter.get: return the decoded value of the first alias present in the
tag set, absence when none is; decode errors propagate. -/
def converterGet {α : Type} (tags : List Str) (decode : Value → Except PyErr α)
    (data : Dict) : Except PyErr (Option α) :=
  match tags with
  | [] => Except.ok none
  | t :: rest =>
    match dictLookup data t with
    | none => converterGet rest decode data
    | some v => (decode v).map some

/-- Converter.decode (the scalar base class): identity. -/
def scalarDecode (v : Value) : Except PyErr Value := Except.ok v

/-- IntConverter.decode: Python int() of the raw value. -/
def intDecode (v : Value) : Except PyErr Int :=
  match v with
  | Value.prim (Prim.pstr s) =>
    match parsePyInt s with
    | some n => Except.ok n
    | none => Except.error PyErr.valueError
  | Value.prim (Prim.pnum n) => Except.ok n
  | Value.varr _ => Except.error PyErr.typeError

/-- ListConverter.decode: wrap a scalar into a one-element list, then take the
first element; data[0] of an empty list is an IndexError. -/
def listDecode (v : Value) : Except PyErr Prim :=
  match v with
  | Value.prim p => Except.ok p
  | Value.varr [] => Except.error PyErr.indexError
  | Value.varr (x :: _) => Except.ok x

/-- BoolConverter.decode: the case-folded falsy set; non-strings lack
casefold (AttributeError). -/
def boolDecode (v : Value) : Except PyErr Bool :=
  match v with
  | Value.prim (Prim.pstr s) =>
    Except.ok (decide (¬ (casefold s = [] ∨ casefold s = chars "0" ∨
      casefold s = chars "no" ∨ casefold s = chars "false")))
  | _ => Except.error PyErr.attributeError

/-- The MTagDate class: a calendar date plus the _mtag_date full-precision
flag (class default False, set to True on the dateutil branch). -/
structure MTagDate where
  year : Int
  month : Nat
  day : Nat
  mtag_date : Bool
deriving DecidableEq

/-- A plain datetime.date with no precision flag. -/
structure PyDate where
  year : Int
  month : Nat
  day : Nat
deriving DecidableEq

def allDigits : Str → Option Nat
  | [] => none
  | s => if s.all isDigitCh then some (s.foldl (fun n c => 10 * n + digitVal c) 0) else none

/-- Models the external dateutil.parser.parse for ISO YYYY-MM-DD input; other
formats that library accepts are outside the modelled scope and reported as
parse failures. -/
def parseISODate (s : Str) : Option (Int × Nat × Nat) :=
  match splitOnChar '-' s with
  | [ys, ms, ds] =>
    match allDigits ys, allDigits ms, allDigits ds with
    | some y, some m, some d =>
      if 1 ≤ m ∧ m ≤ 12 ∧ 1 ≤ d ∧ d ≤ 31 then some ((y : Int), m, d) else none
    | _, _, _ => none
  | _ => none

/-- DateConverter.decode: an integral raw value inside datetime.date's year
range yields a year-only MTagDate (flag False); otherwise the raw string is
parsed as a date and the full-precision flag is set. -/
def dateDecode (v : Value) : Except PyErr MTagDate :=
  match v with
  | Value.varr _ => Except.error PyErr.typeError
  | Value.prim (Prim.pnum n) =>
    if 1 ≤ n ∧ n ≤ 9999 then Except.ok ⟨n, 1, 1, false⟩ else Except.error PyErr.typeError
  | Value.prim (Prim.pstr s) =>
    match parsePyInt s with
    | some n =>
      if 1 ≤ n ∧ n ≤ 9999 then Except.ok ⟨n, 1, 1, false⟩
      else
        match parseISODate s with
        | some (y, m, d) => Except.ok ⟨y, m, d, true⟩
        | none => Except.error PyErr.parseError
    | none =>
      match parseISODate s with
      | some (y, m, d) => Except.ok ⟨y, m, d, true⟩
      | none => Except.error PyErr.parseError

/-- DependentConverter.get: absence of the upstream decoded field yields
absence, else the transform is applied. -/
def dependentGet {α : Type} (dep : Str) (transform : MTagDate → Option α)
    (context : Str → Option MTagDate) : Option α :=
  match context dep with
  | none => none
  | some v => transform v

/-- Year.transform. -/
def yearTransform (v : MTagDate) : Option Int := some v.year

/-- Month.transform. -/
def monthTransform (v : MTagDate) : Option Nat :=
  if v.mtag_date then some v.month else none

/-- Day.transform. -/
def dayTransform (v : MTagDate) : Option Nat :=
  if v.mtag_date then some v.day else none

/-- DateHack.transform: the plain calendar date, precision flag stripped. -/
def dateHackTransform (v : MTagDate) : Option PyDate := some ⟨v.year, v.month, v.day⟩

/-- The alias list of TAGS['track']. -/
def trackAliases : List Str := [chars "track", chars "tracknumber"]

/-- A string Value. -/
def vs (s : String) : Value := Value.prim (Prim.pstr (chars s))

def emptyFS : FS := ⟨fun _ => none⟩

/-- A directory holding one sidecar with a single direct entry. -/
def sfs : FS :=
  ⟨fun p => if p = chars "/d/s.tags" then some [[(chars "@", vs "t.mp3")]] else none⟩

/-- A sidecar whose first entry lacks the reserved key. -/
def c1fs : FS :=
  ⟨fun p => if p = chars "/f.tags" then
    some [[(chars "x", vs "1")], [(chars "@", vs "a.mp3")]] else none⟩

/-- A sidecar whose first entry carries an indexed reference to a non-sidecar
target, followed by a well-formed entry. -/
def c6fs : FS :=
  ⟨fun p => if p = chars "/f.tags" then
    some [[(chars "@", vs "x.mp3|1")], [(chars "@", vs "y.mp3")]] else none⟩

/-- A sidecar with one entry carrying a list-valued tag. -/
def wfs : FS :=
  ⟨fun p => if p = chars "/w.tags" then
    some [[(chars "@", vs "a.mp3"), (chars "genre", Value.varr [Prim.pstr (chars "rock")])]]
    else none⟩

/-- First entry of the explicit-deletion example. -/
def wE1 : Entry := [(chars "@", vs "a"), (chars "genre", Value.varr [Prim.pstr (chars "rock")])]

/-- Second entry of the explicit-deletion example: genre set to the empty
sequence. -/
def wE2 : Entry := [(chars "@", vs "b"), (chars "genre", Value.varr [])]

theorem dictLookup_append (a b : Dict) (key : Str) :
    dictLookup (a ++ b) key =
      match dictLookup a key with
      | some v => some v
      | none => dictLookup b key := by
  induction a with
  | nil => simp [dictLookup]
  | cons kv rest ih =>
    obtain ⟨k, v⟩ := kv
    by_cases h : k = key
    · simp [dictLookup, h]
    · simp [dictLookup, h, ih]

theorem dictLookup_insert (m : Dict) (k : Str) (v : Value) (key : Str) :
    dictLookup (dictInsert m k v) key = if k = key then some v else dictLookup m key := by
  induction m with
  | nil => simp [dictInsert, dictLookup]
  | cons kv rest ih =>
    obtain ⟨k2, w⟩ := kv
    by_cases h : k2 = k
    · subst h
      by_cases h2 : k2 = key <;> simp [dictInsert, dictLookup, h2]
    · by_cases h2 : k2 = key
      · subst h2
        have h3 : ¬ k = k2 := fun he => h he.symm
        simp [dictInsert, dictLookup, h, h3]
      · simp [dictInsert, dictLookup, h, h2, ih]

theorem dictLookup_cons (k : Str) (v : Value) (rest : Dict) (key : Str) :
    dictLookup ((k, v) :: rest) key = if k = key then some v else dictLookup rest key := rfl

theorem dictInsert_cons (k2 : Str) (w : Value) (rest : Dict) (k : Str) (v : Value) :
    dictInsert ((k2, w) :: rest) k v =
      if k2 = k then (k, v) :: rest else (k2, w) :: dictInsert rest k v := rfl

theorem dictRemove_cons (k : Str) (v : Value) (rest : Dict) (rk : Str) :
    dictRemove ((k, v) :: rest) rk =
      if k = rk then dictRemove rest rk else (k, v) :: dictRemove rest rk := rfl

theorem delEmpty_cons (k : Str) (v : Value) (rest : Dict) :
    delEmpty ((k, v) :: rest) =
      if v = Value.varr [] then delEmpty rest else (k, v) :: delEmpty rest := rfl

theorem dictLookup_dictUpdate (news m : Dict) (key : Str) :
    dictLookup (dictUpdate m news) key =
      match dictLookup news.reverse key with
      | some v => some v
      | none => dictLookup m key := by
  induction news generalizing m with
  | nil => simp [dictUpdate, dictLookup]
  | cons kv rest ih =>
    obtain ⟨k, v⟩ := kv
    have hstep : dictUpdate m ((k, v) :: rest) = dictUpdate (dictInsert m k v) rest := rfl
    rw [hstep, ih, List.reverse_cons, dictLookup_append]
    cases h : dictLookup rest.reverse key
    · by_cases hk : k = key <;> simp [dictLookup, hk, dictLookup_insert]
    · simp

theorem mem_keys_insert (m : Dict) (k : Str) (v : Value) (key : Str) :
    key ∈ (dictInsert m k v).map Prod.fst ↔ key ∈ m.map Prod.fst ∨ key = k := by
  induction m with
  | nil => simp [dictInsert]
  | cons kv rest ih =>
    obtain ⟨k2, w⟩ := kv
    rw [dictInsert_cons]
    by_cases h : k2 = k
    · rw [if_pos h]
      subst h
      simp only [List.map_cons, List.mem_cons]
      tauto
    · rw [if_neg h]
      simp only [List.map_cons, List.mem_cons, ih]
      tauto

theorem nodup_keys_insert (m : Dict) (k : Str) (v : Value)
    (h : (m.map Prod.fst).Nodup) : ((dictInsert m k v).map Prod.fst).Nodup := by
  induction m with
  | nil => simp [dictInsert]
  | cons kv rest ih =>
    obtain ⟨k2, w⟩ := kv
    rw [List.map_cons, List.nodup_cons] at h
    rw [dictInsert_cons]
    by_cases hk : k2 = k
    · rw [if_pos hk]
      subst hk
      rw [List.map_cons, List.nodup_cons]
      exact h
    · rw [if_neg hk, List.map_cons, List.nodup_cons]
      refine ⟨fun hmem => ?_, ih h.2⟩
      rcases (mem_keys_insert rest k v k2).mp hmem with h2 | h2
      · exact h.1 h2
      · exact hk h2

theorem nodup_keys_foldIns (g : Str × Value → Str) (l : List (Str × Value)) :
    ∀ d : Dict, (d.map Prod.fst).Nodup →
      ((l.foldl (fun acc kv => dictInsert acc (g kv) kv.2) d).map Prod.fst).Nodup := by
  induction l with
  | nil => intro d hd; exact hd
  | cons kv rest ih => intro d hd; exact ih _ (nodup_keys_insert _ _ _ hd)

theorem nodup_keys_casefoldDict (e : Entry) : ((casefoldDict e).map Prod.fst).Nodup :=
  nodup_keys_foldIns (fun kv => casefold kv.1) e [] (by simp)

theorem nodup_keys_dictUpdate (m news : Dict) (h : (m.map Prod.fst).Nodup) :
    ((dictUpdate m news).map Prod.fst).Nodup :=
  nodup_keys_foldIns (fun kv => kv.1) news m h

theorem keys_delEmpty_sublist (m : Dict) :
    ((delEmpty m).map Prod.fst).Sublist (m.map Prod.fst) := by
  induction m with
  | nil => simp [delEmpty]
  | cons kv rest ih =>
    obtain ⟨k, v⟩ := kv
    by_cases h : v = Value.varr []
    · simp only [delEmpty, if_pos h, List.map_cons]
      exact ih.trans (List.sublist_cons_self _ _)
    · simp only [delEmpty, if_neg h, List.map_cons]
      exact ih.cons₂ k

theorem nodup_keys_delEmpty (m : Dict) (h : (m.map Prod.fst).Nodup) :
    ((delEmpty m).map Prod.fst).Nodup :=
  h.sublist (keys_delEmpty_sublist m)

theorem nodup_keys_tagUpdate (ts : Dict) (e : Entry) (h : (ts.map Prod.fst).Nodup) :
    ((tagUpdate ts e).map Prod.fst).Nodup :=
  nodup_keys_delEmpty _ (nodup_keys_dictUpdate _ _ h)

theorem dictLookup_eq_none_iff (d : Dict) (key : Str) :
    dictLookup d key = none ↔ key ∉ d.map Prod.fst := by
  induction d with
  | nil => simp [dictLookup]
  | cons kv rest ih =>
    obtain ⟨k, v⟩ := kv
    rw [dictLookup_cons, List.map_cons]
    by_cases h : k = key
    · subst h
      simp
    · have h2 : ¬ key = k := fun he => h he.symm
      simp [h, h2, ih]

theorem dictLookup_reverse (d : Dict) (key : Str) (h : (d.map Prod.fst).Nodup) :
    dictLookup d.reverse key = dictLookup d key := by
  induction d with
  | nil => rfl
  | cons kv rest ih =>
    obtain ⟨k, v⟩ := kv
    rw [List.map_cons, List.nodup_cons] at h
    rw [List.reverse_cons, dictLookup_append, ih h.2]
    by_cases hk : k = key
    · subst hk
      have hn : dictLookup rest k = none := (dictLookup_eq_none_iff rest k).mpr h.1
      simp [hn, dictLookup_cons]
    · cases hr : dictLookup rest key <;> simp [dictLookup, dictLookup_cons, hk, hr]

theorem dictLookup_delEmpty (m : Dict) (key : Str) (h : (m.map Prod.fst).Nodup) :
    dictLookup (delEmpty m) key =
      match dictLookup m key with
      | some v => if v = Value.varr [] then none else some v
      | none => none := by
  induction m with
  | nil => rfl
  | cons kv rest ih =>
    obtain ⟨k, v⟩ := kv
    rw [List.map_cons, List.nodup_cons] at h
    by_cases hv : v = Value.varr []
    · by_cases hk : k = key
      · subst hk
        have hn : dictLookup rest k = none := (dictLookup_eq_none_iff rest k).mpr h.1
        simp [delEmpty, dictLookup, hv, ih h.2, hn]
      · simp [delEmpty, dictLookup, hv, hk, ih h.2]
    · by_cases hk : k = key
      · simp [delEmpty, dictLookup, hv, hk]
      · simp [delEmpty, dictLookup, hv, hk, ih h.2]

theorem dictLookup_dictRemove (m : Dict) (rk key : Str) :
    dictLookup (dictRemove m rk) key = if key = rk then none else dictLookup m key := by
  induction m with
  | nil => simp [dictRemove, dictLookup]
  | cons kv rest ih =>
    obtain ⟨k, v⟩ := kv
    rw [dictRemove_cons]
    by_cases hk : k = rk
    · rw [if_pos hk, ih]
      by_cases h2 : key = rk
      · simp [h2]
      · have h3 : ¬ k = key := fun he => h2 (he.symm.trans hk)
        simp [h2, dictLookup_cons, h3]
    · rw [if_neg hk, dictLookup_cons]
      by_cases h2 : k = key
      · have h3 : ¬ key = rk := fun he => hk (h2.trans he)
        simp [dictLookup_cons, h2, h3, ih]
      · simp [dictLookup_cons, h2, ih]

theorem dictLookup_tagUpdate (ts : Dict) (e : Entry) (key : Str)
    (h : (ts.map Prod.fst).Nodup) :
    dictLookup (tagUpdate ts e) key =
      match dictLookup (casefoldDict e) key with
      | some v => if v = Value.varr [] then none else some v
      | none =>
        match dictLookup ts key with
        | some v => if v = Value.varr [] then none else some v
        | none => none := by
  unfold tagUpdate
  rw [dictLookup_delEmpty _ _ (nodup_keys_dictUpdate _ _ h), dictLookup_dictUpdate,
      dictLookup_reverse _ _ (nodup_keys_casefoldDict e)]
  cases h1 : dictLookup (casefoldDict e) key <;> simp

theorem dictLookup_some_mem (d : Dict) (key : Str) (v : Value) :
    dictLookup d key = some v → (key, v) ∈ d := by
  induction d with
  | nil => intro h; simp [dictLookup] at h
  | cons kv rest ih =>
    obtain ⟨k, w⟩ := kv
    intro h
    rw [dictLookup_cons] at h
    by_cases hk : k = key
    · rw [if_pos hk] at h
      subst hk
      have hw := Option.some.inj h
      rw [← hw]
      exact List.mem_cons_self _ _
    · rw [if_neg hk] at h
      exact List.mem_cons_of_mem _ (ih h)

theorem mem_dictRemove_sub (m : Dict) (rk : Str) (x : Str × Value) :
    x ∈ dictRemove m rk → x ∈ m := by
  induction m with
  | nil => intro h; simp [dictRemove] at h
  | cons kv rest ih =>
    obtain ⟨k, v⟩ := kv
    intro h
    rw [dictRemove_cons] at h
    by_cases hk : k = rk
    · rw [if_pos hk] at h
      exact List.mem_cons_of_mem _ (ih h)
    · rw [if_neg hk] at h
      rcases List.mem_cons.mp h with h | h
      · rw [h]
        exact List.mem_cons_self _ _
      · exact List.mem_cons_of_mem _ (ih h)

theorem mem_delEmpty (m : Dict) (x : Str × Value) :
    x ∈ delEmpty m → x ∈ m ∧ x.2 ≠ Value.varr [] := by
  induction m with
  | nil => intro h; simp [delEmpty] at h
  | cons kv rest ih =>
    obtain ⟨k, v⟩ := kv
    intro h
    rw [delEmpty_cons] at h
    by_cases hv : v = Value.varr []
    · rw [if_pos hv] at h
      exact ⟨List.mem_cons_of_mem _ (ih h).1, (ih h).2⟩
    · rw [if_neg hv] at h
      rcases List.mem_cons.mp h with h | h
      · rw [h]
        exact ⟨List.mem_cons_self _ _, hv⟩
      · exact ⟨List.mem_cons_of_mem _ (ih h).1, (ih h).2⟩

theorem splitOnChar_cons (c x : Char) (xs : Str) (p : Str) (ps : List Str)
    (h : splitOnChar c xs = p :: ps) :
    splitOnChar c (x :: xs) = if x = c then [] :: p :: ps else (x :: p) :: ps := by
  simp only [splitOnChar]
  rw [h]

theorem splitOnChar_exists (c : Char) (s : Str) : ∃ p ps, splitOnChar c s = p :: ps := by
  induction s with
  | nil => exact ⟨[], [], rfl⟩
  | cons x xs ih =>
    obtain ⟨p, ps, h⟩ := ih
    rw [splitOnChar_cons c x xs p ps h]
    by_cases hx : x = c
    · rw [if_pos hx]
      exact ⟨[], p :: ps, rfl⟩
    · rw [if_neg hx]
      exact ⟨x :: p, ps, rfl⟩

theorem splitOnChar_single (c : Char) (s : Str) (hc : c ∉ s) : splitOnChar c s = [s] := by
  induction s with
  | nil => rfl
  | cons x xs ih =>
    have hx : ¬ x = c := fun he => hc (he ▸ List.mem_cons_self x xs)
    have hxs : c ∉ xs := fun hm => hc (List.mem_cons_of_mem _ hm)
    rw [splitOnChar_cons c x xs xs [] (ih hxs), if_neg hx]

theorem mem_splitOnChar_noc (c : Char) (s : Str) :
    ∀ t ∈ splitOnChar c s, c ∉ t := by
  induction s with
  | nil =>
    intro t ht
    simp only [splitOnChar, List.mem_singleton] at ht
    simp [ht]
  | cons x xs ih =>
    obtain ⟨p, ps, h⟩ := splitOnChar_exists c xs
    rw [h] at ih
    intro t ht
    rw [splitOnChar_cons c x xs p ps h] at ht
    by_cases hx : x = c
    · rw [if_pos hx] at ht
      rcases List.mem_cons.mp ht with h1 | h1
      · rw [h1]; exact List.not_mem_nil c
      · exact ih t h1
    · rw [if_neg hx] at ht
      rcases List.mem_cons.mp ht with h1 | h1
      · rw [h1]
        intro hm
        rcases List.mem_cons.mp hm with h2 | h2
        · exact hx h2.symm
        · exact ih p (List.mem_cons_self p ps) h2
      · exact ih t (List.mem_cons_of_mem _ h1)

theorem mem_splitOnChar_sub (c : Char) (s : Str) :
    ∀ t ∈ splitOnChar c s, ∀ x ∈ t, x ∈ s := by
  induction s with
  | nil =>
    intro t ht
    simp only [splitOnChar, List.mem_singleton] at ht
    simp [ht]
  | cons y xs ih =>
    obtain ⟨p, ps, h⟩ := splitOnChar_exists c xs
    rw [h] at ih
    intro t ht x hx
    rw [splitOnChar_cons c y xs p ps h] at ht
    by_cases hy : y = c
    · rw [if_pos hy] at ht
      rcases List.mem_cons.mp ht with h1 | h1
      · rw [h1] at hx; exact absurd hx (List.not_mem_nil x)
      · exact List.mem_cons_of_mem _ (ih t h1 x hx)
    · rw [if_neg hy] at ht
      rcases List.mem_cons.mp ht with h1 | h1
      · rw [h1] at hx
        rcases List.mem_cons.mp hx with h2 | h2
        · rw [h2]; exact List.mem_cons_self y xs
        · exact List.mem_cons_of_mem _ (ih p (List.mem_cons_self p ps) x h2)
      · exact List.mem_cons_of_mem _ (ih t (List.mem_cons_of_mem _ h1) x hx)

theorem splitOnChar_prepend (c : Char) (t u : Str) (p : Str) (ps : List Str)
    (hc : c ∉ t) (h : splitOnChar c u = p :: ps) :
    splitOnChar c (t ++ u) = (t ++ p) :: ps := by
  induction t with
  | nil => simpa using h
  | cons y t2 ih =>
    have hy : ¬ y = c := fun he => hc (he ▸ List.mem_cons_self y t2)
    have ht2 : c ∉ t2 := fun hm => hc (List.mem_cons_of_mem _ hm)
    rw [List.cons_append, splitOnChar_cons c y (t2 ++ u) (t2 ++ p) ps (ih ht2), if_neg hy,
      List.cons_append]

theorem splitOnChar_sep_cons (c : Char) (s : Str) :
    splitOnChar c (c :: s) = [] :: splitOnChar c s := by
  obtain ⟨p, ps, h⟩ := splitOnChar_exists c s
  rw [splitOnChar_cons c c s p ps h, if_pos rfl, h]

theorem splitOnChar_two (s ks : Str) (hs : '|' ∉ s) (hks : '|' ∉ ks) :
    splitOnChar '|' (s ++ '|' :: ks) = [s, ks] := by
  have h1 : splitOnChar '|' ('|' :: ks) = [] :: [ks] := by
    rw [splitOnChar_sep_cons, splitOnChar_single '|' ks hks]
  have h2 := splitOnChar_prepend '|' s ('|' :: ks) [] [ks] hs h1
  rw [h2, List.append_nil]

theorem splitOnChar_length (c : Char) (s : Str) :
    (splitOnChar c s).length = s.count c + 1 := by
  induction s with
  | nil => rfl
  | cons x xs ih =>
    obtain ⟨p, ps, h⟩ := splitOnChar_exists c xs
    have hlen : ps.length + 1 = xs.count c + 1 := by
      rw [← ih, h, List.length_cons]
    rw [splitOnChar_cons c x xs p ps h]
    by_cases hx : x = c
    · subst hx
      rw [if_pos rfl]
      simp only [List.length_cons]
      rw [List.count_cons_self]
      omega
    · rw [if_neg hx]
      simp only [List.length_cons]
      rw [List.count_cons_of_ne (fun he => hx he.symm)]
      omega

theorem mem_dropLast {α : Type} (l : List α) (t : α) : t ∈ l.dropLast → t ∈ l := by
  induction l with
  | nil => intro h; simp at h
  | cons x xs ih =>
    intro h
    cases xs with
    | nil => simp at h
    | cons y ys =>
      rw [List.dropLast_cons₂] at h
      rcases List.mem_cons.mp h with h1 | h1
      · rw [h1]; exact List.mem_cons_self _ _
      · exact List.mem_cons_of_mem _ (ih h1)

theorem mem_pathComponents (s : Str) :
    ∀ t ∈ pathComponents s, t ≠ [] ∧ '/' ∉ t ∧ (∀ x ∈ t, x ∈ s) := by
  intro t ht
  unfold pathComponents at ht
  have h1 := List.mem_filter.mp ht
  refine ⟨?_, mem_splitOnChar_noc '/' s t h1.1, mem_splitOnChar_sub '/' s t h1.1⟩
  intro he
  rw [he] at h1
  simp at h1

theorem normCompAux_mem (cs : List Str) :
    ∀ acc t, t ∈ normCompAux acc cs → t ∈ acc ∨ t ∈ cs := by
  induction cs with
  | nil =>
    intro acc t h
    rw [normCompAux, List.mem_reverse] at h
    exact Or.inl h
  | cons c rest ih =>
    intro acc t h
    rw [normCompAux] at h
    by_cases h1 : c = chars "."
    · rw [if_pos h1] at h
      rcases ih acc t h with h2 | h2
      · exact Or.inl h2
      · exact Or.inr (List.mem_cons_of_mem _ h2)
    · rw [if_neg h1] at h
      by_cases h2 : c = chars ".."
      · rw [if_pos h2] at h
        rcases ih acc.tail t h with h3 | h3
        · left
          cases acc with
          | nil => simpa using h3
          | cons a as => exact List.mem_cons_of_mem _ h3
        · exact Or.inr (List.mem_cons_of_mem _ h3)
      · rw [if_neg h2] at h
        rcases ih (c :: acc) t h with h3 | h3
        · rcases List.mem_cons.mp h3 with h4 | h4
          · exact Or.inr (h4 ▸ List.mem_cons_self c rest)
          · exact Or.inl h4
        · exact Or.inr (List.mem_cons_of_mem _ h3)

theorem normCompAux_nodots (cs : List Str) :
    ∀ acc, (∀ a ∈ acc, a ≠ chars "." ∧ a ≠ chars "..") →
      ∀ t ∈ normCompAux acc cs, t ≠ chars "." ∧ t ≠ chars ".." := by
  induction cs with
  | nil =>
    intro acc hacc t h
    rw [normCompAux, List.mem_reverse] at h
    exact hacc t h
  | cons c rest ih =>
    intro acc hacc t h
    rw [normCompAux] at h
    by_cases h1 : c = chars "."
    · rw [if_pos h1] at h
      exact ih acc hacc t h
    · rw [if_neg h1] at h
      by_cases h2 : c = chars ".."
      · rw [if_pos h2] at h
        refine ih acc.tail (fun a ha => hacc a ?_) t h
        cases acc with
        | nil => simpa using ha
        | cons b bs => exact List.mem_cons_of_mem _ ha
      · rw [if_neg h2] at h
        refine ih (c :: acc) (fun a ha => ?_) t h
        rcases List.mem_cons.mp ha with h3 | h3
        · exact h3 ▸ ⟨h1, h2⟩
        · exact hacc a h3

theorem normCompAux_id (cs : List Str) :
    ∀ acc, (∀ t ∈ cs, t ≠ chars "." ∧ t ≠ chars "..") →
      normCompAux acc cs = acc.reverse ++ cs := by
  induction cs with
  | nil => intro acc _; simp [normCompAux]
  | cons c rest ih =>
    intro acc hcs
    have hc := hcs c (List.mem_cons_self c rest)
    rw [normCompAux, if_neg hc.1, if_neg hc.2,
      ih (c :: acc) (fun t ht => hcs t (List.mem_cons_of_mem _ ht))]
    simp

theorem splitOnChar_renderComps (cs : List Str)
    (h : ∀ t ∈ cs, t ≠ [] ∧ '/' ∉ t) :
    splitOnChar '/' (renderComps cs) = [] :: cs := by
  induction cs with
  | nil => rfl
  | cons c rest ih =>
    have hc := h c (List.mem_cons_self c rest)
    have hrest := ih (fun t ht => h t (List.mem_cons_of_mem _ ht))
    rw [renderComps, List.cons_append, splitOnChar_sep_cons,
      splitOnChar_prepend '/' c (renderComps rest) [] rest hc.2 hrest, List.append_nil]

theorem mem_renderComps (cs : List Str) (x : Char) :
    x ∈ renderComps cs → x = '/' ∨ ∃ t ∈ cs, x ∈ t := by
  induction cs with
  | nil => intro h; simp [renderComps] at h
  | cons c rest ih =>
    intro h
    rw [renderComps, List.cons_append] at h
    rcases List.mem_cons.mp h with h1 | h1
    · exact Or.inl h1
    · rcases List.mem_append.mp h1 with h2 | h2
      · exact Or.inr ⟨c, List.mem_cons_self c rest, h2⟩
      · rcases ih h2 with h3 | ⟨t, ht, hx⟩
        · exact Or.inl h3
        · exact Or.inr ⟨t, List.mem_cons_of_mem _ ht, hx⟩

theorem pathComponents_renderAbs (cs : List Str)
    (h : ∀ t ∈ cs, t ≠ [] ∧ '/' ∉ t) : pathComponents (renderAbs cs) = cs := by
  cases cs with
  | nil => rfl
  | cons c rest =>
    have hne : ¬ (c :: rest : List Str).isEmpty = true := by simp
    rw [renderAbs, if_neg hne]
    unfold pathComponents
    rw [splitOnChar_renderComps (c :: rest) h]
    have h0 : List.filter (fun t => !t.isEmpty) ([] :: c :: rest)
        = List.filter (fun t => !t.isEmpty) (c :: rest) := by simp
    rw [h0]
    exact List.filter_eq_self.mpr (fun t ht => by simpa using (h t ht).1)

theorem canonPath_comps (s : Str) :
    ∀ t ∈ normComponents (pathComponents s),
      t ≠ [] ∧ '/' ∉ t ∧ t ≠ chars "." ∧ t ≠ chars ".." := by
  intro t ht
  have h1 : t ∈ pathComponents s := by
    rcases normCompAux_mem (pathComponents s) [] t ht with h | h
    · simp at h
    · exact h
  have h2 := mem_pathComponents s t h1
  have h3 := normCompAux_nodots (pathComponents s) [] (by simp) t ht
  exact ⟨h2.1, h2.2.1, h3⟩

theorem canonPath_idem (s : Str) : canonPath (canonPath s) = canonPath s := by
  unfold canonPath
  rw [pathComponents_renderAbs (normComponents (pathComponents s))
    (fun t ht => ⟨(canonPath_comps s t ht).1, (canonPath_comps s t ht).2.1⟩)]
  unfold normComponents
  rw [normCompAux_id (normCompAux [] (pathComponents s)) []
    (fun t ht => (canonPath_comps s t ht).2.2)]
  simp

theorem canonPath_shape (s : Str) : ∃ t, canonPath s = '/' :: t := by
  unfold canonPath renderAbs
  by_cases h : (normComponents (pathComponents s)).isEmpty = true
  · rw [if_pos h]; exact ⟨[], rfl⟩
  · rw [if_neg h]
    cases hc : normComponents (pathComponents s) with
    | nil => rw [hc] at h; simp at h
    | cons c rest => rw [renderComps, List.cons_append]; exact ⟨_, rfl⟩

theorem canonPath_noBar (s : Str) (h : '|' ∉ s) : '|' ∉ canonPath s := by
  intro hmem
  unfold canonPath renderAbs at hmem
  by_cases he : (normComponents (pathComponents s)).isEmpty = true
  · rw [if_pos he] at hmem
    simp at hmem
  · rw [if_neg he] at hmem
    rcases mem_renderComps _ _ hmem with h1 | ⟨t, ht, hx⟩
    · simp at h1
    · have h2 : t ∈ pathComponents s := by
        rcases normCompAux_mem (pathComponents s) [] t ht with h2 | h2
        · simp at h2
        · exact h2
      exact h ((mem_pathComponents s t h2).2.2 '|' hx)

theorem parentDir_noBar (s : Str) (h : '|' ∉ s) : '|' ∉ parentDir s := by
  intro hmem
  unfold parentDir renderAbs at hmem
  by_cases he : ((pathComponents s).dropLast).isEmpty = true
  · rw [if_pos he] at hmem
    simp at hmem
  · rw [if_neg he] at hmem
    rcases mem_renderComps _ _ hmem with h1 | ⟨t, ht, hx⟩
    · simp at h1
    · exact h ((mem_pathComponents s t (mem_dropLast _ t ht)).2.2 '|' hx)

theorem joinPaths_noBar (d rel : Str) (hd : '|' ∉ d) (hr : '|' ∉ rel) :
    '|' ∉ joinPaths d rel := by
  intro hmem
  unfold joinPaths at hmem
  by_cases hh : rel.head? = some '/'
  · rw [if_pos hh] at hmem
    exact hr hmem
  · rw [if_neg hh] at hmem
    rcases List.mem_append.mp hmem with h1 | h1
    · exact hd h1
    · rcases List.mem_cons.mp h1 with h2 | h2
      · simp at h2
      · exact hr h2

theorem joinPaths_absR (d : Str) (t : Str) : joinPaths d ('/' :: t) = '/' :: t := by
  simp [joinPaths]

theorem resolvePath_succ (fs : FS) (g : Nat) :
    resolvePath fs (g + 1) = resolvePathF fs (resolvePath fs g) := rfl

theorem nestedItems_eq (fs : FS) (g : Nat) (p : Str) :
    nestedItems fs (resolvePath fs g) p = itemsFrom fs g p := rfl

theorem resolveBase_noBar (cp base : Str) (h1 : '|' ∉ cp) (h2 : '|' ∉ base) :
    '|' ∉ resolveBase cp base :=
  canonPath_noBar _ (joinPaths_noBar _ _ (parentDir_noBar cp h1) h2)

theorem afterLoopErr_ne_ok (res : ItemsResult) (y : Str) : afterLoopErr res ≠ Except.ok y := by
  unfold afterLoopErr
  cases res.error <;> simp

theorem resolvePathF_direct (fs : FS) (rp : Str → Str → Except PyErr Str) (sp ref : Str)
    (h : '|' ∉ ref) : resolvePathF fs rp sp ref = Except.ok (resolveBase sp ref) := by
  unfold resolvePathF
  rw [splitOnChar_single '|' ref h]

theorem resolvePathF_two (fs : FS) (rp : Str → Str → Except PyErr Str) (sp base subs : Str)
    (h1 : '|' ∉ base) (h2 : '|' ∉ subs) :
    resolvePathF fs rp sp (base ++ '|' :: subs) =
      match parsePyInt subs with
      | none => Except.error PyErr.notImplementedError
      | some sub =>
        if sufTags (resolveBase sp base) then resolveIndexed fs rp (resolveBase sp base) sub
        else Except.error PyErr.exceptionError := by
  unfold resolvePathF
  rw [splitOnChar_two base subs h1 h2]

theorem resolvePath_fix (fs : FS) (g : Nat) (q y : Str)
    (h1 : '|' ∉ y) (h2 : canonPath y = y) :
    resolvePath fs (g + 1) q y = Except.ok y := by
  rw [resolvePath_succ, resolvePathF_direct fs _ q y h1]
  unfold resolveBase
  obtain ⟨t, ht⟩ := canonPath_shape y
  rw [h2] at ht
  rw [ht, joinPaths_absR, ← ht, h2]

theorem resolvePath_ok_canon (fs : FS) :
    ∀ (g : Nat) (q ref y : Str), '|' ∉ q →
      resolvePath fs g q ref = Except.ok y → canonPath y = y ∧ '|' ∉ y := by
  intro g
  induction g with
  | zero =>
    intro q ref y _ h
    exact absurd h (by simp [resolvePath])
  | succ g ih =>
    intro q ref y hq h
    rw [resolvePath_succ] at h
    unfold resolvePathF at h
    obtain ⟨p, ps, hsp⟩ := splitOnChar_exists '|' ref
    rw [hsp] at h
    cases ps with
    | nil =>
      have hp : '|' ∉ p := mem_splitOnChar_noc '|' ref p (by rw [hsp]; exact List.mem_cons_self _ _)
      have h2 : Except.ok (resolveBase q p) = Except.ok y := h
      have h3 := Except.ok.inj h2
      rw [← h3]
      exact ⟨canonPath_idem _, resolveBase_noBar q p hq hp⟩
    | cons s2 ps2 =>
      cases ps2 with
      | nil =>
        have hp : '|' ∉ p :=
          mem_splitOnChar_noc '|' ref p (by rw [hsp]; exact List.mem_cons_self _ _)
        have h2 : (match parsePyInt s2 with
          | none => Except.error PyErr.notImplementedError
          | some sub =>
            if sufTags (resolveBase q p) then
              resolveIndexed fs (resolvePath fs g) (resolveBase q p) sub
            else Except.error PyErr.exceptionError) = Except.ok y := h
        cases hpi : parsePyInt s2 with
        | none =>
          rw [hpi] at h2
          have h3 : (Except.error PyErr.notImplementedError : Except PyErr Str)
              = Except.ok y := h2
          exact absurd h3 (by simp)
        | some sub =>
          rw [hpi] at h2
          have h3 : (if sufTags (resolveBase q p) then
              resolveIndexed fs (resolvePath fs g) (resolveBase q p) sub
            else Except.error PyErr.exceptionError) = Except.ok y := h2
          clear h2
          rename' h3 => h2
          by_cases hsuf : sufTags (resolveBase q p) = true
          · rw [if_pos hsuf] at h2
            unfold resolveIndexed at h2
            by_cases hone : (1 : Int) ≤ sub
            · rw [if_pos hone] at h2
              cases hget : (nestedItems fs (resolvePath fs g) (resolveBase q p)).yielded.get?
                  (sub.toNat - 1) with
              | none =>
                rw [hget] at h2
                exact absurd h2 (afterLoopErr_ne_ok _ _)
              | some pr =>
                rw [hget] at h2
                exact ih (resolveBase q p) pr.1 y (resolveBase_noBar q p hq hp) h2
            · rw [if_neg hone] at h2
              exact absurd h2 (afterLoopErr_ne_ok _ _)
          · rw [if_neg hsuf] at h2
            exact absurd h2 (by simp)
      | cons s3 ps3 =>
        have h2 : (Except.error PyErr.valueError : Except PyErr Str) = Except.ok y := h
        exact absurd h2 (by simp)

theorem runEntries_nil (resolve : Str → Except PyErr Str) (ts : Dict) :
    runEntries resolve ts [] = ⟨[], none⟩ := rfl

theorem runEntries_cons_eq (resolve : Str → Except PyErr Str) (ts : Dict) (e : Entry)
    (rest : List Entry) :
    runEntries resolve ts (e :: rest) =
      (match dictLookup (tagUpdate ts e) atKey with
       | none => (⟨[], some PyErr.keyError⟩ : ItemsResult)
       | some (Value.prim (Prim.pstr ref)) =>
         match resolve ref with
         | Except.ok p =>
           ⟨(p, dictRemove (tagUpdate ts e) atKey) ::
             (runEntries resolve (tagUpdate ts e) rest).yielded,
            (runEntries resolve (tagUpdate ts e) rest).error⟩
         | Except.error PyErr.notImplementedError => runEntries resolve (tagUpdate ts e) rest
         | Except.error err => ⟨[], some err⟩
       | some _ => ⟨[], some PyErr.typeError⟩) := rfl

theorem runEntries_cons_keyErr (resolve : Str → Except PyErr Str) (ts : Dict) (e : Entry)
    (rest : List Entry) (h : dictLookup (tagUpdate ts e) atKey = none) :
    runEntries resolve ts (e :: rest) = ⟨[], some PyErr.keyError⟩ := by
  rw [runEntries_cons_eq, h]

theorem runEntries_cons_resolve (resolve : Str → Except PyErr Str) (ts : Dict) (e : Entry)
    (rest : List Entry) (r : Str)
    (h1 : dictLookup (tagUpdate ts e) atKey = some (Value.prim (Prim.pstr r))) :
    runEntries resolve ts (e :: rest) =
      match resolve r with
      | Except.ok p =>
        ⟨(p, dictRemove (tagUpdate ts e) atKey) ::
          (runEntries resolve (tagUpdate ts e) rest).yielded,
         (runEntries resolve (tagUpdate ts e) rest).error⟩
      | Except.error PyErr.notImplementedError => runEntries resolve (tagUpdate ts e) rest
      | Except.error err => ⟨[], some err⟩ := by
  rw [runEntries_cons_eq, h1]

theorem runEntries_cons_ok (resolve : Str → Except PyErr Str) (ts : Dict) (e : Entry)
    (rest : List Entry) (r p : Str)
    (h1 : dictLookup (tagUpdate ts e) atKey = some (Value.prim (Prim.pstr r)))
    (h2 : resolve r = Except.ok p) :
    runEntries resolve ts (e :: rest) =
      ⟨(p, dictRemove (tagUpdate ts e) atKey) ::
        (runEntries resolve (tagUpdate ts e) rest).yielded,
       (runEntries resolve (tagUpdate ts e) rest).error⟩ := by
  rw [runEntries_cons_resolve resolve ts e rest r h1, h2]

theorem runEntries_cons_skip (resolve : Str → Except PyErr Str) (ts : Dict) (e : Entry)
    (rest : List Entry) (r : Str)
    (h1 : dictLookup (tagUpdate ts e) atKey = some (Value.prim (Prim.pstr r)))
    (h2 : resolve r = Except.error PyErr.notImplementedError) :
    runEntries resolve ts (e :: rest) = runEntries resolve (tagUpdate ts e) rest := by
  rw [runEntries_cons_resolve resolve ts e rest r h1, h2]

theorem runEntries_cons_abort (resolve : Str → Except PyErr Str) (ts : Dict) (e : Entry)
    (rest : List Entry) (r : Str) (err : PyErr)
    (h1 : dictLookup (tagUpdate ts e) atKey = some (Value.prim (Prim.pstr r)))
    (h2 : resolve r = Except.error err) (hne : err ≠ PyErr.notImplementedError) :
    runEntries resolve ts (e :: rest) = ⟨[], some err⟩ := by
  rw [runEntries_cons_resolve resolve ts e rest r h1, h2]
  cases err <;> first | exact absurd rfl hne | rfl

theorem runEntries_cons_badval (resolve : Str → Except PyErr Str) (ts : Dict) (e : Entry)
    (rest : List Entry) (v : Value)
    (h1 : dictLookup (tagUpdate ts e) atKey = some v)
    (h2 : ∀ s, v ≠ Value.prim (Prim.pstr s)) :
    runEntries resolve ts (e :: rest) = ⟨[], some PyErr.typeError⟩ := by
  rw [runEntries_cons_eq, h1]
  cases v with
  | prim p =>
    cases p with
    | pstr s => exact absurd rfl (h2 s)
    | pnum n => rfl
  | varr l => rfl

theorem runEntries_yield_resolve (resolve : Str → Except PyErr Str) (es : List Entry) :
    ∀ (ts : Dict) (pr : Str × Dict), pr ∈ (runEntries resolve ts es).yielded →
      ∃ r, resolve r = Except.ok pr.1 := by
  induction es with
  | nil =>
    intro ts pr h
    rw [runEntries_nil] at h
    simp at h
  | cons e rest ih =>
    intro ts pr h
    cases hl : dictLookup (tagUpdate ts e) atKey with
    | none =>
      rw [runEntries_cons_keyErr resolve ts e rest hl] at h
      simp at h
    | some v =>
      by_cases hv : ∃ r, v = Value.prim (Prim.pstr r)
      · obtain ⟨r, hr⟩ := hv
        subst hr
        cases hres : resolve r with
        | ok p =>
          rw [runEntries_cons_ok resolve ts e rest r p hl hres] at h
          rcases List.mem_cons.mp h with h1 | h1
          · exact ⟨r, by rw [h1]; exact hres⟩
          · exact ih (tagUpdate ts e) pr h1
        | error err =>
          by_cases hne : err = PyErr.notImplementedError
          · subst hne
            rw [runEntries_cons_skip resolve ts e rest r hl hres] at h
            exact ih (tagUpdate ts e) pr h
          · rw [runEntries_cons_abort resolve ts e rest r err hl hres hne] at h
            simp at h
      · rw [runEntries_cons_badval resolve ts e rest v hl
          (fun s he => hv ⟨s, he⟩)] at h
        simp at h

theorem runEntries_yield_shape (resolve : Str → Except PyErr Str) (es : List Entry) :
    ∀ (ts : Dict) (pr : Str × Dict), pr ∈ (runEntries resolve ts es).yielded →
      ∃ m, pr.2 = dictRemove (delEmpty m) atKey := by
  induction es with
  | nil =>
    intro ts pr h
    rw [runEntries_nil] at h
    simp at h
  | cons e rest ih =>
    intro ts pr h
    cases hl : dictLookup (tagUpdate ts e) atKey with
    | none =>
      rw [runEntries_cons_keyErr resolve ts e rest hl] at h
      simp at h
    | some v =>
      by_cases hv : ∃ r, v = Value.prim (Prim.pstr r)
      · obtain ⟨r, hr⟩ := hv
        subst hr
        cases hres : resolve r with
        | ok p =>
          rw [runEntries_cons_ok resolve ts e rest r p hl hres] at h
          rcases List.mem_cons.mp h with h1 | h1
          · exact ⟨dictUpdate ts (casefoldDict e), by rw [h1]; rfl⟩
          · exact ih (tagUpdate ts e) pr h1
        | error err =>
          by_cases hne : err = PyErr.notImplementedError
          · subst hne
            rw [runEntries_cons_skip resolve ts e rest r hl hres] at h
            exact ih (tagUpdate ts e) pr h
          · rw [runEntries_cons_abort resolve ts e rest r err hl hres hne] at h
            simp at h
      · rw [runEntries_cons_badval resolve ts e rest v hl
          (fun s he => hv ⟨s, he⟩)] at h
        simp at h

theorem lookup_clean (m : Dict) (k : Str) (v : Value)
    (h : dictLookup (dictRemove (delEmpty m) atKey) k = some v) : v ≠ Value.varr [] := by
  have h1 := dictLookup_some_mem _ _ _ h
  have h2 := mem_dictRemove_sub _ _ _ h1
  exact (mem_delEmpty _ _ h2).2

theorem keys_dictRemove_sublist (m : Dict) (rk : Str) :
    ((dictRemove m rk).map Prod.fst).Sublist (m.map Prod.fst) := by
  induction m with
  | nil => simp [dictRemove]
  | cons kv rest ih =>
    obtain ⟨k, v⟩ := kv
    rw [dictRemove_cons]
    by_cases hk : k = rk
    · rw [if_pos hk, List.map_cons]
      exact ih.trans (List.sublist_cons_self _ _)
    · rw [if_neg hk, List.map_cons, List.map_cons]
      exact ih.cons₂ k

theorem nodup_keys_dictRemove (m : Dict) (rk : Str) (h : (m.map Prod.fst).Nodup) :
    ((dictRemove m rk).map Prod.fst).Nodup :=
  h.sublist (keys_dictRemove_sublist m rk)

/-- Claim C1 is refuted by this run: the first entry of c1fs lacks the
reserved key `@` and no earlier entry supplied one, so the pop raises
KeyError; the error propagates out of the generator and the well-formed
second entry is never yielded. -/
theorem claim_C1_counterexample :
    itemsFrom c1fs 1 (chars "/f.tags") = ⟨[], some PyErr.keyError⟩ := by decide

/-- Claim C1 (amended): an array element lacking `@` is not a per-entry skip.
If the cumulative tag set also lacks `@` (no earlier entry supplied one), the
pop raises a KeyError that propagates to the caller and nothing further is
yielded; if an earlier entry supplied a string `@`, the element silently
inherits that reference from the cumulative tag set and is yielded with it. -/
theorem claim_C1 :
    (∀ (resolve : Str → Except PyErr Str) (ts : Dict) (e : Entry) (rest : List Entry),
      dictLookup (tagUpdate ts e) atKey = none →
      runEntries resolve ts (e :: rest) = ⟨[], some PyErr.keyError⟩)
    ∧ (∀ (resolve : Str → Except PyErr Str) (ts : Dict) (e : Entry) (rest : List Entry)
        (r p : Str), (ts.map Prod.fst).Nodup →
      dictLookup (casefoldDict e) atKey = none →
      dictLookup ts atKey = some (Value.prim (Prim.pstr r)) →
      resolve r = Except.ok p →
      (runEntries resolve ts (e :: rest)).yielded.head?
        = some (p, dictRemove (tagUpdate ts e) atKey)) := by
  refine ⟨fun resolve ts e rest h => runEntries_cons_keyErr resolve ts e rest h, ?_⟩
  intro resolve ts e rest r p hnd hcf hts hres
  have hl : dictLookup (tagUpdate ts e) atKey = some (Value.prim (Prim.pstr r)) := by
    rw [dictLookup_tagUpdate ts e atKey hnd, hcf, hts]
    rfl
  rw [runEntries_cons_ok resolve ts e rest r p hl hres]
  rfl

/-- Witness for the amended C1 at a concrete entry lacking `@`. -/
theorem claim_C1_witness :
    runEntries (fun r => Except.ok r) [] [[(chars "x", vs "1")]]
      = ⟨[], some PyErr.keyError⟩ :=
  claim_C1.1 (fun r => Except.ok r) [] [(chars "x", vs "1")] [] (by decide)

/-- Claim C4: a reference with exactly one bar whose index part is not an
integer resolves to the NotImplementedError condition, and the items loop
catches exactly that error: processing continues as if iteration restarted on
the remaining entries from the updated cumulative tag set. -/
theorem claim_C4 (fs : FS) (g : Nat) (cp base subs : Str)
    (h1 : '|' ∉ base) (h2 : '|' ∉ subs) (h3 : parsePyInt subs = none) :
    resolvePath fs (g + 1) cp (base ++ '|' :: subs) = Except.error PyErr.notImplementedError
    ∧ (∀ (resolve : Str → Except PyErr Str) (ts : Dict) (e : Entry) (rest : List Entry)
        (r : Str),
      dictLookup (tagUpdate ts e) atKey = some (Value.prim (Prim.pstr r)) →
      resolve r = Except.error PyErr.notImplementedError →
      runEntries resolve ts (e :: rest) = runEntries resolve (tagUpdate ts e) rest) := by
  constructor
  · rw [resolvePath_succ, resolvePathF_two fs _ cp base subs h1 h2, h3]
  · exact fun resolve ts e rest r ha hb => runEntries_cons_skip resolve ts e rest r ha hb

/-- Witness for C4: the archive-member style reference "x.zip|a". -/
theorem claim_C4_witness :
    resolvePath emptyFS 1 (chars "/m.tags") (chars "x.zip" ++ '|' :: chars "a")
      = Except.error PyErr.notImplementedError :=
  (claim_C4 emptyFS 0 (chars "/m.tags") (chars "x.zip") (chars "a")
    (by decide) (by decide) (by decide)).1

/-- Claim C6 is refuted by this run: the first entry of c6fs carries an
indexed reference whose base resolves to a non-.tags path; the bare Exception
is not caught, so the entry is not skipped and the well-formed second entry
is never processed. -/
theorem claim_C6_counterexample :
    itemsFrom c6fs 2 (chars "/f.tags") = ⟨[], some PyErr.exceptionError⟩ := by decide

/-- Claim C6 (amended): an indexed reference whose resolved base does not end
in ".tags" fails with a bare Exception, distinct from the unsupported
(NotImplementedError) condition; the items loop does not catch it, so the
entry is not skipped and iteration of the containing file aborts with no
further entries yielded. -/
theorem claim_C6 (fs : FS) (g : Nat) (cp base subs : Str) (k : Int)
    (h1 : '|' ∉ base) (h2 : '|' ∉ subs) (h3 : parsePyInt subs = some k)
    (h4 : sufTags (resolveBase cp base) = false) :
    resolvePath fs (g + 1) cp (base ++ '|' :: subs) = Except.error PyErr.exceptionError
    ∧ (Except.error PyErr.exceptionError : Except PyErr Str)
        ≠ Except.error PyErr.notImplementedError
    ∧ (∀ (resolve : Str → Except PyErr Str) (ts : Dict) (e : Entry) (rest : List Entry)
        (r : Str),
      dictLookup (tagUpdate ts e) atKey = some (Value.prim (Prim.pstr r)) →
      resolve r = Except.error PyErr.exceptionError →
      runEntries resolve ts (e :: rest) = ⟨[], some PyErr.exceptionError⟩) := by
  refine ⟨?_, by simp, fun resolve ts e rest r ha hb =>
    runEntries_cons_abort resolve ts e rest r PyErr.exceptionError ha hb (by simp)⟩
  rw [resolvePath_succ, resolvePathF_two fs _ cp base subs h1 h2, h3]
  show (if sufTags (resolveBase cp base) then
      resolveIndexed fs (resolvePath fs g) (resolveBase cp base) k
    else Except.error PyErr.exceptionError) = Except.error PyErr.exceptionError
  rw [if_neg (by rw [h4]; exact Bool.false_ne_true)]

/-- Witness for the amended C6: "x.mp3|1" resolves to a non-sidecar target. -/
theorem claim_C6_witness :
    resolvePath emptyFS 1 (chars "/f.tags") (chars "x.mp3" ++ '|' :: chars "1")
      = Except.error PyErr.exceptionError :=
  (claim_C6 emptyFS 0 (chars "/f.tags") (chars "x.mp3") (chars "1") 1
    (by decide) (by decide) (by decide) (by decide)).1

/-- Claim C7: decoding "1999" yields a year-only DateValue (year 1999, flag
unset); the dependent year field is 1999 while month and day are absent.
Decoding "1999-05-03" yields full precision; dependent month is 5, day is 3,
and the DateHack transform yields the plain calendar date 1999-05-03. -/
theorem claim_C7 :
    dateDecode (vs "1999") = Except.ok ⟨1999, 1, 1, false⟩
    ∧ dependentGet (chars "date") yearTransform
        (fun k => if k = chars "date" then some ⟨1999, 1, 1, false⟩ else none) = some 1999
    ∧ dependentGet (chars "date") monthTransform
        (fun k => if k = chars "date" then some ⟨1999, 1, 1, false⟩ else none) = none
    ∧ dependentGet (chars "date") dayTransform
        (fun k => if k = chars "date" then some ⟨1999, 1, 1, false⟩ else none) = none
    ∧ dateDecode (vs "1999-05-03") = Except.ok ⟨1999, 5, 3, true⟩
    ∧ dependentGet (chars "date") monthTransform
        (fun k => if k = chars "date" then some ⟨1999, 5, 3, true⟩ else none) = some 5
    ∧ dependentGet (chars "date") dayTransform
        (fun k => if k = chars "date" then some ⟨1999, 5, 3, true⟩ else none) = some 3
    ∧ dependentGet (chars "date") dateHackTransform
        (fun k => if k = chars "date" then some ⟨1999, 5, 3, true⟩ else none)
      = some ⟨1999, 5, 3⟩ := by
  decide

/-- Claim C8: Converter.get returns the decoded value of the first alias (in
declared order) present in the tag set and absence when none is present; in
particular TAGS['track'] decodes to 1 when both track="1" and tracknumber="9"
are present. -/
theorem claim_C8 :
    (∀ (α : Type) (decode : Value → Except PyErr α) (data : Dict) (pre post : List Str)
        (t : Str) (v : Value),
      (∀ t2 ∈ pre, dictLookup data t2 = none) → dictLookup data t = some v →
      converterGet (pre ++ t :: post) decode data = (decode v).map some)
    ∧ (∀ (α : Type) (decode : Value → Except PyErr α) (data : Dict) (tags : List Str),
      (∀ t2 ∈ tags, dictLookup data t2 = none) →
      converterGet tags decode data = Except.ok none)
    ∧ converterGet trackAliases intDecode
        [(chars "track", vs "1"), (chars "tracknumber", vs "9")] = Except.ok (some 1) := by
  refine ⟨?_, ?_, by decide⟩
  · intro α decode data pre post t v
    induction pre with
    | nil =>
      intro _ ht
      rw [List.nil_append]
      unfold converterGet
      rw [ht]
    | cons a as ih =>
      intro hpre ht
      rw [List.cons_append]
      unfold converterGet
      rw [hpre a (List.mem_cons_self a as)]
      exact ih (fun t2 hm => hpre t2 (List.mem_cons_of_mem a hm)) ht
  · intro α decode data tags
    induction tags with
    | nil => intro _; rfl
    | cons a as ih =>
      intro htags
      unfold converterGet
      rw [htags a (List.mem_cons_self a as)]
      exact ih (fun t2 hm => htags t2 (List.mem_cons_of_mem a hm))

/-- Witness for C8's general clause: with only the second alias present, its
decoded value is returned. -/
theorem claim_C8_witness :
    converterGet [chars "a", chars "b"] intDecode [(chars "b", vs "7")]
      = Except.ok (some 7) := by
  have h := claim_C8.1 Int intDecode [(chars "b", vs "7")] [chars "a"] [] (chars "b") (vs "7")
    (by decide) (by decide)
  exact h.trans (by decide)

/-- Claim C9: a reference with two or more bars raises the unpack ValueError
outside the guarded int() parse; it is not the NotImplementedError the items
loop catches, so the entry is not skipped and iteration aborts with nothing
further yielded. -/
theorem claim_C9 (fs : FS) (g : Nat) (cp ref : Str) (h : 2 ≤ ref.count '|') :
    resolvePath fs (g + 1) cp ref = Except.error PyErr.valueError
    ∧ (Except.error PyErr.valueError : Except PyErr Str)
        ≠ Except.error PyErr.notImplementedError
    ∧ (∀ (resolve : Str → Except PyErr Str) (ts : Dict) (e : Entry) (rest : List Entry)
        (r : Str),
      dictLookup (tagUpdate ts e) atKey = some (Value.prim (Prim.pstr r)) →
      resolve r = Except.error PyErr.valueError →
      runEntries resolve ts (e :: rest) = ⟨[], some PyErr.valueError⟩) := by
  refine ⟨?_, by simp, fun resolve ts e rest r ha hb =>
    runEntries_cons_abort resolve ts e rest r PyErr.valueError ha hb (by simp)⟩
  have hlen : 3 ≤ (splitOnChar '|' ref).length := by
    rw [splitOnChar_length]
    omega
  rw [resolvePath_succ]
  unfold resolvePathF
  obtain ⟨p, ps, hsp⟩ := splitOnChar_exists '|' ref
  rw [hsp] at hlen ⊢
  cases ps with
  | nil => simp at hlen
  | cons a as =>
    cases as with
    | nil => simp at hlen
    | cons b bs => exact rfl

/-- Witness for C9 at the two-bar reference "a|b|c". -/
theorem claim_C9_witness :
    resolvePath emptyFS 1 (chars "/m.tags") (chars "a|b|c")
      = Except.error PyErr.valueError :=
  (claim_C9 emptyFS 0 (chars "/m.tags") (chars "a|b|c") (by decide)).1

/-- Claim C5: an indexed reference into a sidecar that yields fewer entries
than the 1-based index fails with LookupError; the caller catches only
NotImplementedError, so the LookupError propagates and iteration of the
containing file aborts with nothing further yielded (no path is fabricated). -/
theorem claim_C5 (fs : FS) (g : Nat) (cp base subs : Str) (k : Int)
    (h1 : '|' ∉ base) (h2 : '|' ∉ subs) (h3 : parsePyInt subs = some k) (h4 : 1 ≤ k)
    (h5 : sufTags (resolveBase cp base) = true)
    (h6 : (itemsFrom fs g (resolveBase cp base)).error = none)
    (h7 : ((itemsFrom fs g (resolveBase cp base)).yielded.length : Int) < k) :
    resolvePath fs (g + 1) cp (base ++ '|' :: subs) = Except.error PyErr.lookupError
    ∧ (∀ (resolve : Str → Except PyErr Str) (ts : Dict) (e : Entry) (rest : List Entry)
        (r : Str),
      dictLookup (tagUpdate ts e) atKey = some (Value.prim (Prim.pstr r)) →
      resolve r = Except.error PyErr.lookupError →
      runEntries resolve ts (e :: rest) = ⟨[], some PyErr.lookupError⟩) := by
  refine ⟨?_, fun resolve ts e rest r ha hb =>
    runEntries_cons_abort resolve ts e rest r PyErr.lookupError ha hb (by simp)⟩
  rw [resolvePath_succ, resolvePathF_two fs _ cp base subs h1 h2, h3]
  show (if sufTags (resolveBase cp base) then
      resolveIndexed fs (resolvePath fs g) (resolveBase cp base) k
    else Except.error PyErr.exceptionError) = Except.error PyErr.lookupError
  rw [if_pos h5]
  unfold resolveIndexed
  rw [if_pos h4]
  have hnone : (nestedItems fs (resolvePath fs g) (resolveBase cp base)).yielded.get?
      (k.toNat - 1) = none := by
    rw [nestedItems_eq]
    apply List.get?_eq_none.mpr
    omega
  rw [hnone]
  unfold afterLoopErr
  rw [nestedItems_eq, h6]

/-- Witness for C5: index 2 into a one-entry sidecar. -/
theorem claim_C5_witness :
    resolvePath sfs 2 (chars "/d/m.tags") (chars "s.tags" ++ '|' :: chars "2")
      = Except.error PyErr.lookupError :=
  (claim_C5 sfs 1 (chars "/d/m.tags") (chars "s.tags") (chars "2") 2
    (by decide) (by decide) (by decide) (by decide) (by decide) (by decide) (by decide)).1

/-- Claim C10: every tag set yielded by items maps no key to the empty
sequence (empty values are deleted before yielding), so the list-or-scalar
decode never hits its empty-list first-element access: over a yielded tag set
it returns Except.ok for every alias list. -/
theorem claim_C10 (fs : FS) (fuel : Nat) (path : Str) (pr : Str × Dict)
    (h : pr ∈ (itemsFrom fs fuel path).yielded) :
    (∀ k, dictLookup pr.2 k ≠ some (Value.varr []))
    ∧ (∀ tags : List Str, ∃ r, converterGet tags listDecode pr.2 = Except.ok r) := by
  obtain ⟨m, hm⟩ := runEntries_yield_shape (resolvePath fs fuel path)
    (entriesOf fs path) [] pr h
  constructor
  · intro k hk
    rw [hm] at hk
    exact lookup_clean m k _ hk rfl
  · intro tags
    induction tags with
    | nil => exact ⟨none, rfl⟩
    | cons t rest ih =>
      cases hl : dictLookup pr.2 t with
      | none =>
        obtain ⟨r, hr⟩ := ih
        refine ⟨r, ?_⟩
        unfold converterGet
        rw [hl]
        exact hr
      | some v =>
        have hv : v ≠ Value.varr [] := by
          rw [hm] at hl
          exact lookup_clean m t v hl
        have hred : converterGet (t :: rest) listDecode pr.2 = (listDecode v).map some := by
          unfold converterGet
          rw [hl]
        cases v with
        | prim p => exact ⟨some p, by rw [hred]; rfl⟩
        | varr l =>
          cases l with
          | nil => exact absurd rfl hv
          | cons x xs => exact ⟨some x, by rw [hred]; rfl⟩

/-- Witness for C10 on the tag set yielded by wfs. -/
theorem claim_C10_witness :
    dictLookup [(chars "genre", Value.varr [Prim.pstr (chars "rock")])] (chars "genre")
      ≠ some (Value.varr [])
    ∧ ∃ r, converterGet [chars "genre"] listDecode
        [(chars "genre", Value.varr [Prim.pstr (chars "rock")])] = Except.ok r := by
  have h := claim_C10 wfs 1 (chars "/w.tags")
    (chars "/a.mp3", [(chars "genre", Value.varr [Prim.pstr (chars "rock")])]) (by decide)
  exact ⟨h.1 (chars "genre"), h.2 [chars "genre"]⟩

/-- Claim C2: when two consecutive entries both yield, the second yielded tag
set equals the first yielded tag set overlaid with the second entry's own
case-folded keys (with `@` extracted), keys merged to the empty sequence are
deleted, and keys the second entry does not declare are inherited unchanged
from the first entry's effective tag set. -/
theorem claim_C2 (resolve : Str → Except PyErr Str) (ts : Dict) (e1 e2 : Entry)
    (rest : List Entry) (r1 r2 p1 p2 : Str)
    (hnd : (ts.map Prod.fst).Nodup)
    (ha1 : dictLookup (tagUpdate ts e1) atKey = some (Value.prim (Prim.pstr r1)))
    (hb1 : resolve r1 = Except.ok p1)
    (ha2 : dictLookup (tagUpdate (tagUpdate ts e1) e2) atKey
      = some (Value.prim (Prim.pstr r2)))
    (hb2 : resolve r2 = Except.ok p2) :
    (∃ tail, (runEntries resolve ts (e1 :: e2 :: rest)).yielded
        = (p1, dictRemove (tagUpdate ts e1) atKey)
          :: (p2, dictRemove (tagUpdate (tagUpdate ts e1) e2) atKey) :: tail)
    ∧ (∀ k, dictLookup (dictRemove (tagUpdate (tagUpdate ts e1) e2) atKey) k
        = dictLookup (dictRemove (tagUpdate (dictRemove (tagUpdate ts e1) atKey) e2) atKey) k)
    ∧ (∀ k, dictLookup (casefoldDict e2) k = some (Value.varr []) →
        dictLookup (dictRemove (tagUpdate (tagUpdate ts e1) e2) atKey) k = none)
    ∧ (∀ k, ¬ k = atKey → dictLookup (casefoldDict e2) k = none →
        dictLookup (dictRemove (tagUpdate (tagUpdate ts e1) e2) atKey) k
          = dictLookup (dictRemove (tagUpdate ts e1) atKey) k) := by
  have hnd1 : ((tagUpdate ts e1).map Prod.fst).Nodup := nodup_keys_tagUpdate ts e1 hnd
  have hndr : ((dictRemove (tagUpdate ts e1) atKey).map Prod.fst).Nodup :=
    nodup_keys_dictRemove _ _ hnd1
  refine ⟨⟨(runEntries resolve (tagUpdate (tagUpdate ts e1) e2) rest).yielded, ?_⟩,
    ?_, ?_, ?_⟩
  · rw [runEntries_cons_ok resolve ts e1 (e2 :: rest) r1 p1 ha1 hb1,
      runEntries_cons_ok resolve (tagUpdate ts e1) e2 rest r2 p2 ha2 hb2]
  · intro k
    by_cases hk : k = atKey
    · rw [dictLookup_dictRemove, dictLookup_dictRemove, if_pos hk, if_pos hk]
    · rw [dictLookup_dictRemove, dictLookup_dictRemove, if_neg hk, if_neg hk,
        dictLookup_tagUpdate _ e2 k hnd1, dictLookup_tagUpdate _ e2 k hndr]
      cases hcf : dictLookup (casefoldDict e2) k
      · rw [dictLookup_dictRemove, if_neg hk]
      · rfl
  · intro k hcf
    by_cases hk : k = atKey
    · rw [dictLookup_dictRemove, if_pos hk]
    · rw [dictLookup_dictRemove, if_neg hk, dictLookup_tagUpdate _ e2 k hnd1, hcf]
      rfl
  · intro k hk hcf
    rw [dictLookup_dictRemove, dictLookup_dictRemove, if_neg hk, if_neg hk,
      dictLookup_tagUpdate _ e2 k hnd1, hcf]
    cases hc1 : dictLookup (tagUpdate ts e1) k with
    | none => rfl
    | some v =>
      have hmem := dictLookup_some_mem _ _ _ hc1
      have hv : v ≠ Value.varr [] := (mem_delEmpty (dictUpdate ts (casefoldDict e1)) _ hmem).2
      show (if v = Value.varr [] then none else some v) = some v
      rw [if_neg hv]

/-- Witness for C2 on the explicit-deletion example: entry b assigns genre the
empty sequence, and b's yielded tag set indeed lacks the genre key. -/
theorem claim_C2_witness :
    dictLookup (dictRemove (tagUpdate (tagUpdate [] wE1) wE2) atKey) (chars "genre")
      = none :=
  (claim_C2 (fun r => Except.ok r) [] wE1 wE2 [] (chars "a") (chars "b") (chars "a")
    (chars "b") (by decide) (by decide) (by decide) (by decide) (by decide)).2.2.1
    (chars "genre") (by decide)

/-- Claim C3: resolving the indexed reference base|k (k textual, 1-based,
within the target's yielded entry count) returns exactly the concrete path
recorded in the k-th pair yielded by parsing the resolved base sidecar — that
pair's path being the recursive resolution of the k-th entry's own reference
against the nested sidecar's directory. -/
theorem claim_C3 (fs : FS) (g : Nat) (cp s ks : Str) (k : Int)
    (h0 : '|' ∉ cp) (h1 : '|' ∉ s) (h2 : '|' ∉ ks)
    (h3 : parsePyInt ks = some k) (h4 : 1 ≤ k)
    (h5 : sufTags (resolveBase cp s) = true)
    (h6 : k.toNat ≤ (itemsFrom fs (g + 1) (resolveBase cp s)).yielded.length) :
    ∃ pr, (itemsFrom fs (g + 1) (resolveBase cp s)).yielded.get? (k.toNat - 1) = some pr
      ∧ resolvePath fs (g + 2) cp (s ++ '|' :: ks) = Except.ok pr.1 := by
  have hlt : k.toNat - 1 < (itemsFrom fs (g + 1) (resolveBase cp s)).yielded.length := by
    omega
  cases hget : (itemsFrom fs (g + 1) (resolveBase cp s)).yielded.get? (k.toNat - 1) with
  | none =>
    have := List.get?_eq_none.mp hget
    omega
  | some pr =>
    refine ⟨pr, rfl, ?_⟩
    rw [show g + 2 = (g + 1) + 1 from rfl, resolvePath_succ,
      resolvePathF_two fs _ cp s ks h1 h2, h3]
    show (if sufTags (resolveBase cp s) then
        resolveIndexed fs (resolvePath fs (g + 1)) (resolveBase cp s) k
      else Except.error PyErr.exceptionError) = Except.ok pr.1
    rw [if_pos h5]
    unfold resolveIndexed
    rw [if_pos h4, nestedItems_eq, hget]
    have hmem : pr ∈ (itemsFrom fs (g + 1) (resolveBase cp s)).yielded :=
      List.get?_mem hget
    obtain ⟨r, hr⟩ := runEntries_yield_resolve (resolvePath fs (g + 1) (resolveBase cp s))
      (entriesOf fs (resolveBase cp s)) [] pr hmem
    have hcanon := resolvePath_ok_canon fs (g + 1) (resolveBase cp s) r pr.1
      (resolveBase_noBar cp s h0 h1) hr
    exact resolvePath_fix fs g (resolveBase cp s) pr.1 hcanon.2 hcanon.1

/-- Witness for C3: "s.tags|1" from /d/m.tags resolves to /d/t.mp3, the path
of the single entry yielded by /d/s.tags. -/
theorem claim_C3_witness :
    resolvePath sfs 2 (chars "/d/m.tags") (chars "s.tags" ++ '|' :: chars "1")
      = Except.ok (chars "/d/t.mp3") := by
  obtain ⟨pr, hget, hres⟩ := claim_C3 sfs 0 (chars "/d/m.tags") (chars "s.tags")
    (chars "1") 1 (by decide) (by decide) (by decide) (by decide) (by decide)
    (by decide) (by decide)
  have h2 : (itemsFrom sfs 1 (resolveBase (chars "/d/m.tags") (chars "s.tags"))).yielded.get?
      ((1 : Int).toNat - 1) = some (chars "/d/t.mp3", ([] : Dict)) := by decide
  rw [h2] at hget
  have h3 := Option.some.inj hget
  rw [← h3] at hres
  exact hres

end MTag
